import Mathlib

/-!
Verification of the event-to-basecall alignment dumper
(`nanopolish_dump_initial_alignment.cpp`).

The development shallowly embeds `dumpalignment_main` and
`parse_dumpalignment_options`.  A `SquiggleRead` captures exactly the data
the dumper reads from the provider for the single processed strand
(`strand_idx = 0`): the number of events, the per-base `IndexPair` table
(`base_to_event_map[i].indices[0]`), the basecalled sequence, and the
per-event accessors.  Floating-point signal values never enter any claim
arithmetically, so the level/stdv accessors are modelled as opaque integer
payloads; only their identity matters.  The event-to-base map (a
`std::vector<int>` of size `n_events`, initialized to `-1`, read only at
indices `0 ≤ i < n_events`) is modelled as a total function `Int → Int`,
updated pointwise by the inversion loop.  `std::string::substr(pos, k)`
returns `none` exactly when the C++ call throws `std::out_of_range`
(`pos > size()`); a `none` row aborts the read's processing, mirroring the
uncaught exception.
-/

namespace NanopolishDump

/-- `IndexPair`: the inclusive event range `[start, stop]` attributed to one
base on one strand, with `start = -1` as the "no aligned event" sentinel. -/
structure IndexPair where
  start : Int
  stop : Int
  deriving DecidableEq, Repr

/-- The slice of a `SquiggleRead` that `dumpalignment_main` consumes for
strand 0: `n_events = sr.events[0].size()`, `base_to_event_map` holds
`sr.base_to_event_map[i].indices[0]`, `read_sequence = sr.read_sequence`,
and the four per-event accessors (`get_event_sample_idx`,
`get_unscaled_level`, `get_stdv`, `get_fully_scaled_level`) with the strand
argument fixed to 0.  Level/stdv floats are opaque `Int` payloads. -/
structure SquiggleRead where
  n_events : Nat
  base_to_event_map : List IndexPair
  read_sequence : List Char
  get_event_sample_idx : Nat → Nat × Nat
  get_unscaled_level : Nat → Int
  get_stdv : Nat → Int
  get_fully_scaled_level : Nat → Int

/-- One step-counted pass of the inner inversion loop
`for(int j = ip.start; j != -1 && j <= ip.stop; ++j) event_to_base_map[j] = i;`
writing base index `b`.  The guard `j = -1 ∨ stop < j` is the negation of
the C++ loop condition and is re-tested before every write.  `fuel` is an
upper bound on the iteration count, consumed one write at a time. -/
def claimGo (b stop : Int) : Nat → Int → (Int → Int) → Int → Int
  | 0, _, m => m
  | fuel + 1, j, m =>
    if j = -1 ∨ stop < j then m
    else claimGo b stop fuel (j + 1) (fun x => if x = j then b else m x)

/-- The inner inversion loop for one base: starts at `j = start` and runs
while `j ≠ -1 ∧ j ≤ stop`.  The fuel `(stop + 1 - start).toNat` bounds the
number of iterations in every case (the loop stops at `j = -1` or at
`j = stop + 1`, whichever comes first, and never runs when `stop < start`). -/
def claimLoop (b start stop : Int) (m : Int → Int) : Int → Int :=
  claimGo b stop (stop + 1 - start).toNat start m

/-- The outer inversion loop over `sr.base_to_event_map`, base index `i`
increasing; each base's range overwrites the map unconditionally. -/
def invertGo : List IndexPair → Nat → (Int → Int) → Int → Int
  | [], _, m => m
  | ip :: rest, i, m => invertGo rest (i + 1) (claimLoop ((i : Nat) : Int) ip.start ip.stop m)

/-- `std::vector<int> event_to_base_map(n, -1)` followed by the double
inversion loop of `dumpalignment_main` (lines 157–163). -/
def event_to_base_map (ranges : List IndexPair) : Int → Int :=
  invertGo ranges 0 (fun _ => -1)

/-- A `BaseRange` contains event `x` in the sense of the spec: its start is
not the `-1` sentinel and `start ≤ x ≤ stop`. -/
def covers (ip : IndexPair) (x : Int) : Prop :=
  ip.start ≠ -1 ∧ ip.start ≤ x ∧ x ≤ ip.stop

instance (ip : IndexPair) (x : Int) : Decidable (covers ip x) := by
  unfold covers; infer_instance

/-- Index of the highest-indexed range of the list that `covers x`, if any. -/
def lastCover : List IndexPair → Int → Option Nat
  | [], _ => none
  | ip :: rest, x =>
    match lastCover rest x with
    | some b => some (b + 1)
    | none => if covers ip x then some 0 else none

/-- `std::string::substr(pos, count)`: the substring when `pos ≤ size()`
(shorter than `count` near the end), `none` for the `std::out_of_range`
throw when `pos > size()`. -/
def substr (s : List Char) (pos count : Nat) : Option (List Char) :=
  if pos ≤ s.length then some ((s.drop pos).take count) else none

/-- The literal `std::string kmer = "NNNNNN"` placeholder. -/
def kmerPlaceholder : List Char := ['N', 'N', 'N', 'N', 'N', 'N']

/-- One output line of the per-read TSV (lines 208–209): raw sample start
and `size_t` length `sample_range.second - sample_range.first` kept as
naturals, level/stdv as the provider's opaque payloads. -/
structure OutputRow where
  event_index : Nat
  base_index : Int
  strand_index : Nat
  event_mean : Int
  event_stdv : Int
  raw_start : Nat
  raw_length : Nat
  kmer : List Char
  deriving DecidableEq, Repr

/-- One iteration of the emission loop (lines 173–209) for event `i`:
`base_idx` starts from the loop-carried `prev_idx` and `kmer` from the
placeholder; when `event_to_base_map[i] >= 0` both are overwritten, with
the k-mer via `substr(base_idx, 6)` (`none` = thrown).  `event_mean` is the
unscaled level, replaced by the fully scaled level when `scale_events` is
set; `event_stdv` is always the unscaled stdv. -/
def mkRow (sr : SquiggleRead) (m : Int → Int) (scale_events : Bool)
    (prev_idx : Int) (i : Nat) : Option OutputRow :=
  let sample_range := sr.get_event_sample_idx i
  if 0 ≤ m ((i : Nat) : Int) then
    match substr sr.read_sequence (m ((i : Nat) : Int)).toNat 6 with
    | none => none
    | some kmer => some
        { event_index := i
          base_index := m ((i : Nat) : Int)
          strand_index := 0
          event_mean := if scale_events then sr.get_fully_scaled_level i else sr.get_unscaled_level i
          event_stdv := sr.get_stdv i
          raw_start := sample_range.1
          raw_length := sample_range.2 - sample_range.1
          kmer := kmer }
  else some
    { event_index := i
      base_index := prev_idx
      strand_index := 0
      event_mean := if scale_events then sr.get_fully_scaled_level i else sr.get_unscaled_level i
      event_stdv := sr.get_stdv i
      raw_start := sample_range.1
      raw_length := sample_range.2 - sample_range.1
      kmer := kmerPlaceholder }

/-- The emission loop: `cnt` events left, current event index `i`.
`prev_idx` is the variable declared `int prev_idx = 0;` at line 172; the
source reads it every iteration but never assigns to it, so it is threaded
through unchanged. -/
def rowsAux (sr : SquiggleRead) (m : Int → Int) (scale_events : Bool) :
    Nat → Int → Nat → Option (List OutputRow)
  | 0, _, _ => some []
  | cnt + 1, prev_idx, i =>
    match mkRow sr m scale_events prev_idx i with
    | none => none
    | some row =>
      match rowsAux sr m scale_events cnt prev_idx (i + 1) with
      | none => none
      | some rest => some (row :: rest)

/-- Processing of one read inside the `kseq_read` loop: build the
event-to-base map, then emit one row per event starting from `prev_idx = 0`
and event 0.  `none` means the read's processing faulted (thrown substr). -/
def dumpRead (sr : SquiggleRead) (scale_events : Bool) : Option (List OutputRow) :=
  rowsAux sr (event_to_base_map sr.base_to_event_map) scale_events sr.n_events 0 0

/-- A row with the `event_mean` column removed, for comparing runs that may
differ only in that column. -/
def stripMean (row : OutputRow) : Nat × Int × Nat × Int × Nat × Nat × List Char :=
  (row.event_index, row.base_index, row.strand_index, row.event_stdv,
   row.raw_start, row.raw_length, row.kmer)

/-- The `die` flag of `parse_dumpalignment_options` after the checks at
lines 106–119: `die0` is its value out of the getopt loop (set by an
unparseable option), then too many positional arguments, non-positive
thread count, and empty reads path each set it, in source order. -/
def optionsDie (die0 : Bool) (extra_args : Nat) (num_threads : Int)
    (reads_file : List Char) : Bool :=
  ((die0 || decide (0 < extra_args)) || decide (num_threads ≤ 0)) || decide (reads_file = [])

/-- `dumpalignment_main`: option validation exits with `EXIT_FAILURE` (1)
before any read is processed when `die` holds; otherwise every read of the
input is processed in order (file I/O abstracted away) and the program
returns `EXIT_SUCCESS`. -/
def dumpalignment_main (die0 : Bool) (extra_args : Nat) (num_threads : Int)
    (reads_file : List Char) (scale_events : Bool) (reads : List SquiggleRead) :
    Except Nat (List (Option (List OutputRow))) :=
  if optionsDie die0 extra_args num_threads reads_file then Except.error 1
  else Except.ok (reads.map (fun sr => dumpRead sr scale_events))

/-- The trace of indices the inner inversion loop writes to, in order:
the same guard and step as `claimGo`. -/
def claimWritesGo (stop : Int) : Nat → Int → List Int
  | 0, _ => []
  | fuel + 1, j =>
    if j = -1 ∨ stop < j then []
    else j :: claimWritesGo stop fuel (j + 1)

/-- The write trace of `claimLoop b start stop`. -/
def claimWrites (start stop : Int) : List Int :=
  claimWritesGo stop (stop + 1 - start).toNat start

/-- The write trace of the whole inversion (`invertGo` over all bases). -/
def invertWrites : List IndexPair → List Int
  | [] => []
  | ip :: rest => claimWrites ip.start ip.stop ++ invertWrites rest

/-- Concrete read for witnesses: sequence ACGTACGT, 3 events, base ranges
as in the spec's Scenario A (base 1 claims events 0–1, base 3 claims
event 2). -/
def srA : SquiggleRead where
  n_events := 3
  base_to_event_map := [⟨-1, -1⟩, ⟨0, 1⟩, ⟨-1, -1⟩, ⟨2, 2⟩]
  read_sequence := ['A', 'C', 'G', 'T', 'A', 'C', 'G', 'T']
  get_event_sample_idx := fun i => (10 * i, 10 * i + 5)
  get_unscaled_level := fun i => ((100 + i : Nat) : Int)
  get_stdv := fun i => ((20 + i : Nat) : Int)
  get_fully_scaled_level := fun i => ((200 + i : Nat) : Int)

/-- Concrete read where an assigned event (base 1 claims event 0) precedes
an unassigned event (event 1). -/
def srC1 : SquiggleRead where
  n_events := 2
  base_to_event_map := [⟨-1, -1⟩, ⟨0, 0⟩]
  read_sequence := ['A', 'C', 'G', 'T', 'A', 'C', 'G', 'T', 'A', 'C']
  get_event_sample_idx := fun i => (3 * i, 3 * i + 2)
  get_unscaled_level := fun _ => 7
  get_stdv := fun _ => 3
  get_fully_scaled_level := fun _ => 9

/-- Concrete read with a malformed base range (`start = 2 ≥ 0`,
`stop = 0 < start`). -/
def srC3 : SquiggleRead where
  n_events := 1
  base_to_event_map := [⟨2, 0⟩]
  read_sequence := ['A', 'C', 'G', 'T', 'A', 'C', 'G', 'T']
  get_event_sample_idx := fun _ => (4, 9)
  get_unscaled_level := fun _ => 10
  get_stdv := fun _ => 2
  get_fully_scaled_level := fun _ => 50

/-- Concrete read whose basecalled sequence (length 1) is shorter than the
base index assigned to event 0 (base 2 claims event 0). -/
def srC6 : SquiggleRead where
  n_events := 1
  base_to_event_map := [⟨-1, -1⟩, ⟨-1, -1⟩, ⟨0, 0⟩]
  read_sequence := ['A']
  get_event_sample_idx := fun _ => (0, 1)
  get_unscaled_level := fun _ => 1
  get_stdv := fun _ => 1
  get_fully_scaled_level := fun _ => 1

/-- Concrete read with an empty base range table and 2 events. -/
def srD : SquiggleRead where
  n_events := 2
  base_to_event_map := []
  read_sequence := ['A', 'C', 'G', 'T']
  get_event_sample_idx := fun i => (i, i + 4)
  get_unscaled_level := fun i => ((i : Nat) : Int)
  get_stdv := fun i => ((i + 1 : Nat) : Int)
  get_fully_scaled_level := fun i => ((i + 2 : Nat) : Int)

/-! ### Characterization of the inversion loop -/

/-- A base with the `start = -1` sentinel claims no event: the inner loop
guard fails immediately. -/
theorem claimLoop_start_sentinel (b stop : Int) (m : Int → Int) :
    claimLoop b (-1) stop m = m := by
  unfold claimLoop
  cases h : (stop + 1 - (-1)).toNat with
  | zero => rfl
  | succ fuel => simp [claimGo]

/-- With a non-negative start the inner loop writes `b` exactly on
`[j, stop]`, provided the fuel covers the remaining iterations. -/
theorem claimGo_nonneg (b stop : Int) (fuel : Nat) :
    ∀ (j : Int) (m : Int → Int) (x : Int), 0 ≤ j → (stop + 1 - j).toNat ≤ fuel →
      claimGo b stop fuel j m x = if j ≤ x ∧ x ≤ stop then b else m x := by
  induction fuel with
  | zero =>
    intro j m x hj hfuel
    simp only [claimGo]
    rw [if_neg]
    omega
  | succ fuel ih =>
    intro j m x hj hfuel
    simp only [claimGo]
    by_cases hc : j = -1 ∨ stop < j
    · rw [if_pos hc, if_neg]
      omega
    · rw [if_neg hc, ih (j + 1) _ x (by omega) (by omega)]
      show (if j + 1 ≤ x ∧ x ≤ stop then b else if x = j then b else m x) =
        if j ≤ x ∧ x ≤ stop then b else m x
      split_ifs <;> first | rfl | omega

/-- `claimLoop` for a base with non-negative start: it claims exactly the
events of `[start, stop]`. -/
theorem claimLoop_nonneg (b start stop : Int) (m : Int → Int) (x : Int)
    (h : 0 ≤ start) :
    claimLoop b start stop m x = if start ≤ x ∧ x ≤ stop then b else m x :=
  claimGo_nonneg b stop _ start m x h le_rfl

/-- The outer inversion loop resolves each point to the highest-indexed
covering base (offset by the starting base index `i`), falling back to the
incoming map, as long as every range is the sentinel or has a non-negative
start. -/
theorem invertGo_lastCover (ranges : List IndexPair) :
    ∀ (i : Nat) (m : Int → Int) (x : Int),
      (∀ ip ∈ ranges, ip.start = -1 ∨ 0 ≤ ip.start) →
      invertGo ranges i m x =
        (match lastCover ranges x with
         | some b => ((i + b : Nat) : Int)
         | none => m x) := by
  induction ranges with
  | nil => intro i m x _; rfl
  | cons ip rest ih =>
    intro i m x wf
    have wfrest : ∀ p ∈ rest, p.start = -1 ∨ 0 ≤ p.start :=
      fun p hp => wf p (List.mem_cons_of_mem _ hp)
    have wfip := wf ip (List.mem_cons_self _ _)
    simp only [invertGo, lastCover]
    rw [ih (i + 1) _ x wfrest]
    cases hlc : lastCover rest x with
    | some b =>
      simp only [hlc]
      have harith : i + 1 + b = i + (b + 1) := by omega
      rw [harith]
    | none =>
      simp only [hlc]
      rcases wfip with h1 | h1
      · rw [h1, claimLoop_start_sentinel]
        have : ¬ covers ip x := by
          intro hcov
          exact hcov.1 h1
        rw [if_neg this]
      · rw [claimLoop_nonneg _ _ _ _ _ h1]
        by_cases hx : ip.start ≤ x ∧ x ≤ ip.stop
        · have hcov : covers ip x := ⟨by omega, hx.1, hx.2⟩
          rw [if_pos hx, if_pos hcov]
          simp
        · have hcov : ¬ covers ip x := fun hcov => hx ⟨hcov.2.1, hcov.2.2⟩
          rw [if_neg hx, if_neg hcov]

/-- `event_to_base_map` is the last-writer inversion: the highest-indexed
covering base, or `-1` when no range covers the event. -/
theorem event_to_base_map_lastCover (ranges : List IndexPair) (x : Int)
    (wf : ∀ ip ∈ ranges, ip.start = -1 ∨ 0 ≤ ip.start) :
    event_to_base_map ranges x =
      (match lastCover ranges x with
       | some b => ((b : Nat) : Int)
       | none => -1) := by
  unfold event_to_base_map
  rw [invertGo_lastCover ranges 0 _ x wf]
  cases lastCover ranges x <;> simp

/-- When `lastCover` finds nothing, no range of the list covers `x`. -/
theorem lastCover_eq_none (ranges : List IndexPair) (x : Int)
    (h : lastCover ranges x = none) :
    ∀ (b : Nat) (hb : b < ranges.length), ¬ covers ranges[b] x := by
  induction ranges with
  | nil => intro b hb; simp at hb
  | cons ip rest ih =>
    intro b hb
    simp only [lastCover] at h
    cases hlc : lastCover rest x with
    | some c =>
      simp only [hlc] at h
      exact Option.noConfusion h
    | none =>
      simp only [hlc] at h
      by_cases hcov : covers ip x
      · rw [if_pos hcov] at h; simp at h
      · cases b with
        | zero => simpa using hcov
        | succ b =>
          have hb2 : b < rest.length := by simpa using hb
          simpa using ih hlc b hb2

/-- When `lastCover` returns `b`, base `b` covers `x` and is the
highest-indexed base to do so. -/
theorem lastCover_eq_some (ranges : List IndexPair) (x : Int) :
    ∀ (b : Nat), lastCover ranges x = some b →
      ∃ hb : b < ranges.length, covers ranges[b] x ∧
        ∀ (c : Nat) (hc : c < ranges.length), covers ranges[c] x → c ≤ b := by
  induction ranges with
  | nil => intro b h; simp [lastCover] at h
  | cons ip rest ih =>
    intro b h
    simp only [lastCover] at h
    cases hlc : lastCover rest x with
    | some c =>
      simp only [hlc, Option.some.injEq] at h
      subst h
      obtain ⟨hc, hcovc, hmax⟩ := ih c hlc
      refine ⟨by simp; omega, ?_, ?_⟩
      · simpa using hcovc
      · intro d hd hcovd
        cases d with
        | zero => omega
        | succ d =>
          have hd2 : d < rest.length := by simpa using hd
          have := hmax d hd2 (by simpa using hcovd)
          omega
    | none =>
      simp only [hlc] at h
      by_cases hcov : covers ip x
      · rw [if_pos hcov, Option.some.injEq] at h
        subst h
        refine ⟨by simp, ?_, ?_⟩
        · simpa using hcov
        · intro d hd hcovd
          cases d with
          | zero => omega
          | succ d =>
            have hd2 : d < rest.length := by simpa using hd
            exact absurd (by simpa using hcovd) (lastCover_eq_none rest x hlc d hd2)
      · rw [if_neg hcov] at h
        simp at h

/-! ### Characterization of the emission loop -/

/-- For an assigned event the row carries the map's base index and the
substring k-mer; a thrown `substr` aborts the row. -/
theorem mkRow_assigned (sr : SquiggleRead) (m : Int → Int) (sc : Bool)
    (prev : Int) (i : Nat) (h : 0 ≤ m ((i : Nat) : Int)) :
    mkRow sr m sc prev i =
      (substr sr.read_sequence (m ((i : Nat) : Int)).toNat 6).map (fun kmer =>
        { event_index := i
          base_index := m ((i : Nat) : Int)
          strand_index := 0
          event_mean := if sc then sr.get_fully_scaled_level i else sr.get_unscaled_level i
          event_stdv := sr.get_stdv i
          raw_start := (sr.get_event_sample_idx i).1
          raw_length := (sr.get_event_sample_idx i).2 - (sr.get_event_sample_idx i).1
          kmer := kmer }) := by
  simp only [mkRow, if_pos h]
  cases substr sr.read_sequence (m ((i : Nat) : Int)).toNat 6 <;> rfl

/-- For an unassigned event the row carries the loop's `prev_idx` and the
placeholder k-mer, and never faults. -/
theorem mkRow_unassigned (sr : SquiggleRead) (m : Int → Int) (sc : Bool)
    (prev : Int) (i : Nat) (h : ¬ 0 ≤ m ((i : Nat) : Int)) :
    mkRow sr m sc prev i = some
      { event_index := i
        base_index := prev
        strand_index := 0
        event_mean := if sc then sr.get_fully_scaled_level i else sr.get_unscaled_level i
        event_stdv := sr.get_stdv i
        raw_start := (sr.get_event_sample_idx i).1
        raw_length := (sr.get_event_sample_idx i).2 - (sr.get_event_sample_idx i).1
        kmer := kmerPlaceholder } := by
  simp only [mkRow, if_neg h]

/-- Any row `mkRow` produces is stamped with its own event index. -/
theorem mkRow_event_index (sr : SquiggleRead) (m : Int → Int) (sc : Bool)
    (prev : Int) (i : Nat) (row : OutputRow) (h : mkRow sr m sc prev i = some row) :
    row.event_index = i := by
  by_cases hm : 0 ≤ m ((i : Nat) : Int)
  · rw [mkRow_assigned sr m sc prev i hm] at h
    cases hs : substr sr.read_sequence (m ((i : Nat) : Int)).toNat 6 with
    | none => rw [hs] at h; exact Option.noConfusion h
    | some kmer =>
      rw [hs] at h
      simp only [Option.map_some', Option.some.injEq] at h
      rw [← h]
  · rw [mkRow_unassigned sr m sc prev i hm] at h
    simp only [Option.some.injEq] at h
    rw [← h]

/-- A successful run of the emission loop yields one row per remaining
event, and the `k`-th row is exactly the row built for event `i0 + k` (the
loop-carried `prev_idx` never changes). -/
theorem rowsAux_some (sr : SquiggleRead) (m : Int → Int) (sc : Bool) :
    ∀ (cnt : Nat) (prev : Int) (i0 : Nat) (rs : List OutputRow),
      rowsAux sr m sc cnt prev i0 = some rs →
      rs.length = cnt ∧ ∀ k, k < cnt → rs[k]? = mkRow sr m sc prev (i0 + k) := by
  intro cnt
  induction cnt with
  | zero =>
    intro prev i0 rs h
    simp only [rowsAux, Option.some.injEq] at h
    subst h
    exact ⟨rfl, fun k hk => absurd hk (by omega)⟩
  | succ cnt ih =>
    intro prev i0 rs h
    simp only [rowsAux] at h
    cases hm : mkRow sr m sc prev i0 with
    | none => rw [hm] at h; exact Option.noConfusion h
    | some row =>
      rw [hm] at h
      cases hr : rowsAux sr m sc cnt prev (i0 + 1) with
      | none => rw [hr] at h; exact Option.noConfusion h
      | some rest =>
        rw [hr] at h
        simp only [Option.some.injEq] at h
        subst h
        obtain ⟨hlen, hget⟩ := ih prev (i0 + 1) rest hr
        refine ⟨by simp [hlen], fun k hk => ?_⟩
        cases k with
        | zero => simpa using hm.symm
        | succ k =>
          have harith : i0 + (k + 1) = i0 + 1 + k := by omega
          rw [harith]
          simpa using hget k (by omega)

/-- Rows of the two flag settings agree except possibly on `event_mean`. -/
theorem mkRow_stripMean (sr : SquiggleRead) (m : Int → Int) (prev : Int) (i : Nat) :
    (mkRow sr m true prev i).map stripMean = (mkRow sr m false prev i).map stripMean := by
  by_cases hm : 0 ≤ m ((i : Nat) : Int)
  · rw [mkRow_assigned sr m true prev i hm, mkRow_assigned sr m false prev i hm]
    cases substr sr.read_sequence (m ((i : Nat) : Int)).toNat 6 <;> rfl
  · rw [mkRow_unassigned sr m true prev i hm, mkRow_unassigned sr m false prev i hm]
    rfl

/-- The emission loop under the two flag settings produces row streams that
agree on every column except `event_mean`, faults included. -/
theorem rowsAux_stripMean (sr : SquiggleRead) (m : Int → Int) :
    ∀ (cnt : Nat) (prev : Int) (i : Nat),
      (rowsAux sr m true cnt prev i).map (List.map stripMean) =
        (rowsAux sr m false cnt prev i).map (List.map stripMean) := by
  intro cnt
  induction cnt with
  | zero => intro prev i; rfl
  | succ cnt ih =>
    intro prev i
    have hrow := mkRow_stripMean sr m prev i
    simp only [rowsAux]
    cases h1 : mkRow sr m true prev i with
    | none =>
      cases h2 : mkRow sr m false prev i with
      | none => rfl
      | some r2 => rw [h1, h2] at hrow; exact Option.noConfusion hrow
    | some r1 =>
      cases h2 : mkRow sr m false prev i with
      | none => rw [h1, h2] at hrow; exact Option.noConfusion hrow
      | some r2 =>
        rw [h1, h2] at hrow
        simp only [Option.map_some', Option.some.injEq] at hrow
        have ihi := ih prev (i + 1)
        cases g1 : rowsAux sr m true cnt prev (i + 1) with
        | none =>
          cases g2 : rowsAux sr m false cnt prev (i + 1) with
          | none => rfl
          | some rest2 => rw [g1, g2] at ihi; exact Option.noConfusion ihi
        | some rest1 =>
          cases g2 : rowsAux sr m false cnt prev (i + 1) with
          | none => rw [g1, g2] at ihi; exact Option.noConfusion ihi
          | some rest2 =>
            rw [g1, g2] at ihi
            simp only [Option.map_some', Option.some.injEq] at ihi
            simp [hrow, ihi]

/-- When the map assigns no event at all, the emission loop started with
`prev_idx = 0` succeeds and every row carries base index 0 and the
placeholder k-mer. -/
theorem rowsAux_all_unassigned (sr : SquiggleRead) (m : Int → Int) (sc : Bool)
    (hm : ∀ x, m x < 0) :
    ∀ (cnt i : Nat),
      (rowsAux sr m sc cnt 0 i).map (List.map (fun row => (row.base_index, row.kmer))) =
        some (List.replicate cnt ((0 : Int), kmerPlaceholder)) := by
  intro cnt
  induction cnt with
  | zero => intro i; rfl
  | succ cnt ih =>
    intro i
    have hneg : ¬ 0 ≤ m ((i : Nat) : Int) := by have := hm ((i : Nat) : Int); omega
    have ihi := ih (i + 1)
    simp only [rowsAux, mkRow_unassigned sr m sc 0 i hneg]
    cases hr : rowsAux sr m sc cnt 0 (i + 1) with
    | none => rw [hr] at ihi; exact Option.noConfusion ihi
    | some rest =>
      rw [hr] at ihi
      simp only [Option.map_some', Option.some.injEq] at ihi
      simp [List.replicate_succ, ihi]

/-- Every index the inner inversion loop writes lies in `[j0, stop]`. -/
theorem claimWritesGo_mem (stop : Int) :
    ∀ (fuel : Nat) (j0 x : Int), x ∈ claimWritesGo stop fuel j0 → j0 ≤ x ∧ x ≤ stop := by
  intro fuel
  induction fuel with
  | zero => intro j0 x hx; simp [claimWritesGo] at hx
  | succ fuel ih =>
    intro j0 x hx
    simp only [claimWritesGo] at hx
    by_cases hc : j0 = -1 ∨ stop < j0
    · rw [if_pos hc] at hx
      simp at hx
    · rw [if_neg hc] at hx
      rcases List.mem_cons.mp hx with rfl | hmem
      · omega
      · have := ih (j0 + 1) x hmem
        omega

/-! ### The claims -/

/-- C4: for every read whose processing completes, the emitted rows are in
bijection with the events: the row count equals the event count and the
`k`-th row is stamped with event index `k`, so there is exactly one row per
event, with no gaps or duplicates, in strictly increasing event-index
order. -/
theorem C4_one_row_per_event (sr : SquiggleRead) (sc : Bool) (rs : List OutputRow)
    (h : dumpRead sr sc = some rs) :
    rs.length = sr.n_events ∧
      ∀ k, k < sr.n_events → (rs[k]?).map OutputRow.event_index = some k := by
  obtain ⟨hlen, hget⟩ := rowsAux_some sr _ sc sr.n_events 0 0 rs h
  refine ⟨hlen, fun k hk => ?_⟩
  have h1 := hget k hk
  cases hrow : rs[k]? with
  | none =>
    rw [List.getElem?_eq_none_iff] at hrow
    omega
  | some row =>
    rw [hrow] at h1
    have hidx := mkRow_event_index sr _ sc 0 (0 + k) row h1.symm
    simp only [Option.map_some', Option.some.injEq]
    omega

/-- C4 witness: on the Scenario A read, three events yield three rows with
event indices 0, 1, 2. -/
theorem C4_one_row_per_event_witness :
    ((dumpRead srA false).getD []).length = srA.n_events ∧
      ((((dumpRead srA false).getD [])[1]?).map OutputRow.event_index = some 1) := by
  have h : dumpRead srA false = some ((dumpRead srA false).getD []) := rfl
  have hthm := C4_one_row_per_event srA false ((dumpRead srA false).getD []) h
  exact ⟨hthm.1, hthm.2 1 (by decide)⟩

/-- C2: when at least one well-formed range (start `-1` sentinel or
non-negative) covers event `i`, the emitted base index for row `i` is the
highest-indexed covering base: the inversion walks bases in increasing
order and overwrites unconditionally, so the last writer wins. -/
theorem C2_last_writer_wins (sr : SquiggleRead) (sc : Bool) (rs : List OutputRow)
    (i b : Nat)
    (wf : ∀ ip ∈ sr.base_to_event_map, ip.start = -1 ∨ 0 ≤ ip.start)
    (h : dumpRead sr sc = some rs) (hi : i < sr.n_events)
    (hb : b < sr.base_to_event_map.length)
    (hcov : covers sr.base_to_event_map[b] ((i : Nat) : Int))
    (hmax : ∀ (c : Nat) (hc : c < sr.base_to_event_map.length),
      covers sr.base_to_event_map[c] ((i : Nat) : Int) → c ≤ b) :
    (rs[i]?).map OutputRow.base_index = some (((b : Nat) : Int)) := by
  have hmap : event_to_base_map sr.base_to_event_map ((i : Nat) : Int) = ((b : Nat) : Int) := by
    rw [event_to_base_map_lastCover _ _ wf]
    cases hlc : lastCover sr.base_to_event_map ((i : Nat) : Int) with
    | none => exact absurd hcov (lastCover_eq_none _ _ hlc b hb)
    | some c =>
      obtain ⟨hc, hcovc, hmaxc⟩ := lastCover_eq_some _ _ c hlc
      have h1 : c ≤ b := hmax c hc hcovc
      have h2 : b ≤ c := hmaxc b hb hcov
      have : c = b := by omega
      subst this
      rfl
  obtain ⟨hlen, hget⟩ := rowsAux_some sr _ sc sr.n_events 0 0 rs h
  have h1 := hget i hi
  rw [mkRow_assigned sr _ sc 0 (0 + i) (by rw [Nat.zero_add, hmap]; omega)] at h1
  rw [Nat.zero_add] at h1
  rw [hmap] at h1
  simp only [Int.toNat_natCast] at h1
  cases hs : substr sr.read_sequence b 6 with
  | none =>
    rw [hs] at h1
    simp only [Option.map_none'] at h1
    rw [List.getElem?_eq_none_iff] at h1
    exfalso
    omega
  | some kmer =>
    rw [hs] at h1
    simp only [Option.map_some'] at h1
    rw [h1]
    rfl

/-- C2 witness: on the Scenario A read, event 2 is covered only by base 3
(range `[2,2]`), and its row indeed carries base index 3. -/
theorem C2_last_writer_wins_witness :
    ((((dumpRead srA false).getD [])[2]?).map OutputRow.base_index) = some (((3 : Nat) : Int)) := by
  have h : dumpRead srA false = some ((dumpRead srA false).getD []) := rfl
  exact C2_last_writer_wins srA false ((dumpRead srA false).getD []) 2 3
    (by decide) h (by decide) (by decide) (by decide) (by decide)

/-- C1: the carry-forward described by the spec does not happen.  On a read
where base 1 claims event 0 and event 1 has no containing range, the code
emits base index 0 for event 1 — not 1, the base of the nearest preceding
assigned event — because `prev_idx` is initialized to 0 at line 172, read
at line 175, and never reassigned anywhere in the loop.  The spec's
"update `prev_base = base_index`" step has no counterpart in the code. -/
theorem C1_no_carry_forward :
    (dumpRead srC1 false).map (List.map OutputRow.base_index) = some [1, 0] ∧
      event_to_base_map srC1.base_to_event_map 0 = 1 ∧
      event_to_base_map srC1.base_to_event_map 1 = -1 := by
  refine ⟨rfl, rfl, rfl⟩

/-- C3 counterexample: on a read whose only range is the malformed
`[2, 0]` (`start = 2 ≥ 0`, `stop = 0 < start`), processing completes
normally — one placeholder row, no fault of any kind — and the map shows
the range was silently skipped, contradicting the claim that a
data-integrity fault is surfaced. -/
theorem C3_counterexample_silent :
    srC3.base_to_event_map = [⟨2, 0⟩] ∧
      dumpRead srC3 false = some
        [{ event_index := 0, base_index := 0, strand_index := 0, event_mean := 10,
           event_stdv := 2, raw_start := 4, raw_length := 5, kmer := kmerPlaceholder }] ∧
      event_to_base_map srC3.base_to_event_map 0 = -1 := by
  refine ⟨rfl, rfl, rfl⟩

/-- C3 amended: a malformed BaseRange (`start ≥ 0` and `stop < start`) is
silently absorbed by the inversion loop — the loop body never runs, the
event-to-base map is left unchanged, and no fault is raised for the read. -/
theorem C3_malformed_range_skipped (b start stop : Int) (m : Int → Int)
    (h0 : 0 ≤ start) (h1 : stop < start) :
    claimLoop b start stop m = m := by
  unfold claimLoop
  have hfuel : (stop + 1 - start).toNat = 0 := by omega
  rw [hfuel]
  rfl

/-- C3 amended witness: the malformed range `[3, 1]` writes nothing. -/
theorem C3_malformed_range_skipped_witness :
    claimLoop 0 3 1 (fun _ => -1) = (fun _ => -1) :=
  C3_malformed_range_skipped 0 3 1 (fun _ => -1) (by omega) (by omega)

/-- C5: for every emitted row of a completed read, if the event is assigned
base `b` by the event-to-base map then (when `b + 6` fits in the sequence)
the k-mer column is the 6-character substring starting at `b`; if the event
is unassigned the k-mer column is the `NNNNNN` placeholder. -/
theorem C5_kmer_consistency (sr : SquiggleRead) (sc : Bool) (rs : List OutputRow)
    (i : Nat) (h : dumpRead sr sc = some rs) (hi : i < sr.n_events) :
    (∀ b : Nat, event_to_base_map sr.base_to_event_map ((i : Nat) : Int) = ((b : Nat) : Int) →
        b + 6 ≤ sr.read_sequence.length →
        (rs[i]?).map OutputRow.kmer = some ((sr.read_sequence.drop b).take 6)) ∧
      (event_to_base_map sr.base_to_event_map ((i : Nat) : Int) < 0 →
        (rs[i]?).map OutputRow.kmer = some kmerPlaceholder) := by
  obtain ⟨hlen, hget⟩ := rowsAux_some sr _ sc sr.n_events 0 0 rs h
  have h1 := hget i hi
  rw [Nat.zero_add] at h1
  constructor
  · intro b hmap hfit
    rw [mkRow_assigned sr _ sc 0 i (by rw [hmap]; omega)] at h1
    rw [hmap] at h1
    simp only [Int.toNat_natCast] at h1
    have hsub : substr sr.read_sequence b 6 = some ((sr.read_sequence.drop b).take 6) := by
      unfold substr
      rw [if_pos (by omega)]
    rw [hsub] at h1
    simp only [Option.map_some'] at h1
    rw [h1]
    rfl
  · intro hneg
    rw [mkRow_unassigned sr _ sc 0 i (by omega)] at h1
    rw [h1]
    rfl

/-- C5 witness: on the Scenario A read, event 0 is assigned base 1 and its
k-mer is the substring of length 6 starting at position 1 (`CGTACG`); the
length bound `1 + 6 ≤ 8` holds. -/
theorem C5_kmer_consistency_witness :
    ((((dumpRead srA false).getD [])[0]?).map OutputRow.kmer) =
      some ((srA.read_sequence.drop 1).take 6) := by
  have h : dumpRead srA false = some ((dumpRead srA false).getD []) := rfl
  exact (C5_kmer_consistency srA false ((dumpRead srA false).getD []) 0 h (by decide)).1
    1 (by decide) (by decide)

/-- C6 counterexample: event 0 of this read is assigned base 2 while the
basecalled sequence has length 1, and processing the read faults
(`std::string::substr` throws `std::out_of_range`, modelled as `none`)
instead of producing an empty or short k-mer as the claim states. -/
theorem C6_counterexample_throws :
    dumpRead srC6 false = none ∧
      event_to_base_map srC6.base_to_event_map 0 = 2 ∧
      srC6.read_sequence.length = 1 := by
  refine ⟨rfl, rfl, rfl⟩

/-- C6 amended: the k-mer extraction tolerates a base index up to and
including the sequence length, producing the (shorter than 6, possibly
empty) tail substring; but a base index strictly greater than the sequence
length makes `substr` throw, which faults the read's processing. -/
theorem C6_substr_tail_or_throw (s : List Char) (b : Nat) :
    (b ≤ s.length →
        substr s b 6 = some ((s.drop b).take 6) ∧
          ((s.drop b).take 6).length = min 6 (s.length - b)) ∧
      (s.length < b → substr s b 6 = none) := by
  constructor
  · intro hb
    refine ⟨by unfold substr; rw [if_pos hb], ?_⟩
    simp
  · intro hb
    unfold substr
    rw [if_neg (by omega)]

/-- C6 amended witness: position 2 of a 3-character sequence yields the
1-character tail `G`; position 2 of a 1-character sequence throws. -/
theorem C6_substr_tail_or_throw_witness :
    substr ['A', 'C', 'G'] 2 6 = some ['G'] ∧ substr ['A'] 2 6 = none := by
  constructor
  · exact ((C6_substr_tail_or_throw ['A', 'C', 'G'] 2).1 (by decide)).1
  · exact (C6_substr_tail_or_throw ['A'] 2).2 (by decide)

/-- C7: for every read, the runs with `scale_events` set and unset agree on
every column other than `event_mean` — event index, base index, strand
index, event stdv, raw start, raw length and k-mer are identical row by
row (and the runs fault identically). -/
theorem C7_scale_events_only_mean (sr : SquiggleRead) :
    (dumpRead sr true).map (List.map stripMean) =
      (dumpRead sr false).map (List.map stripMean) :=
  rowsAux_stripMean sr (event_to_base_map sr.base_to_event_map) sr.n_events 0 0

/-- C8: a read with an empty base-range table yields the all-unassigned
map (constantly `-1`), and processing succeeds with every row carrying
base index 0 and the placeholder k-mer — one row per event. -/
theorem C8_empty_range_table (sr : SquiggleRead) (sc : Bool)
    (h : sr.base_to_event_map = []) :
    event_to_base_map sr.base_to_event_map = (fun _ => -1) ∧
      (dumpRead sr sc).map (List.map (fun row => (row.base_index, row.kmer))) =
        some (List.replicate sr.n_events ((0 : Int), kmerPlaceholder)) := by
  constructor
  · rw [h]
    rfl
  · have hm : ∀ x, event_to_base_map sr.base_to_event_map x < 0 := by
      rw [h]
      intro x
      show (-1 : Int) < 0
      omega
    exact rowsAux_all_unassigned sr _ sc hm sr.n_events 0

/-- C8 witness: the two-event read with no bases yields two rows, each with
base index 0 and the placeholder k-mer. -/
theorem C8_empty_range_table_witness :
    event_to_base_map srD.base_to_event_map = (fun _ => -1) ∧
      (dumpRead srD false).map (List.map (fun row => (row.base_index, row.kmer))) =
        some (List.replicate srD.n_events ((0 : Int), kmerPlaceholder)) :=
  C8_empty_range_table srD false rfl

/-- C9: a non-positive thread count or an empty reads path makes
`parse_dumpalignment_options` set `die` and the program exit with
`EXIT_FAILURE` before any read is processed; with valid arguments the
program processes every read and returns `EXIT_SUCCESS`. -/
theorem C9_argument_validation (die0 : Bool) (extra_args : Nat) (num_threads : Int)
    (reads_file : List Char) (sc : Bool) (reads : List SquiggleRead) :
    ((num_threads ≤ 0 ∨ reads_file = []) →
        dumpalignment_main die0 extra_args num_threads reads_file sc reads =
          Except.error 1) ∧
      (die0 = false → extra_args = 0 → 0 < num_threads → reads_file ≠ [] →
        dumpalignment_main die0 extra_args num_threads reads_file sc reads =
          Except.ok (reads.map (fun sr => dumpRead sr sc))) := by
  constructor
  · intro h
    have hdie : optionsDie die0 extra_args num_threads reads_file = true := by
      rcases h with h | h <;> simp [optionsDie, h]
    simp [dumpalignment_main, hdie]
  · intro h0 h1 h2 h3
    have ht : ¬ num_threads ≤ 0 := by omega
    have hdie : optionsDie die0 extra_args num_threads reads_file = false := by
      simp [optionsDie, h0, h1, ht, h3]
    simp [dumpalignment_main, hdie]

/-- C9 witness: thread count 0 dies with exit status 1; thread count 2 with
a non-empty reads path succeeds. -/
theorem C9_argument_validation_witness :
    dumpalignment_main false 0 0 ['r'] false [] = Except.error 1 ∧
      dumpalignment_main false 0 2 ['r'] false [] = Except.ok [] := by
  constructor
  · exact (C9_argument_validation false 0 0 ['r'] false []).1 (Or.inl (by omega))
  · have h := (C9_argument_validation false 0 2 ['r'] false []).2 rfl rfl
      (by omega) (by simp)
    simpa using h

/-- C10: the inversion loop writes `event_to_base_map[j]` with no bounds
check; under the precondition that every range with non-negative start has
`stop < n_events` (ranges being the sentinel or non-negative-start, per the
BaseRange data model), every index the inversion writes is in bounds. -/
theorem C10_inversion_writes_in_bounds (ranges : List IndexPair) (n : Nat) :
    (∀ ip ∈ ranges, ip.start = -1 ∨ 0 ≤ ip.start) →
      (∀ ip ∈ ranges, 0 ≤ ip.start → ip.stop < ((n : Nat) : Int)) →
      ∀ j ∈ invertWrites ranges, 0 ≤ j ∧ j < ((n : Nat) : Int) := by
  induction ranges with
  | nil => intro _ _ j hj; simp [invertWrites] at hj
  | cons ip rest ih =>
    intro wf hstop j hj
    simp only [invertWrites, List.mem_append] at hj
    rcases hj with hj | hj
    · rcases wf ip (List.mem_cons_self _ _) with h1 | h1
      · unfold claimWrites at hj
        rw [h1] at hj
        cases hfuel : (ip.stop + 1 - (-1)).toNat with
        | zero => rw [hfuel] at hj; simp [claimWritesGo] at hj
        | succ f => rw [hfuel] at hj; simp [claimWritesGo] at hj
      · have hmem := claimWritesGo_mem ip.stop _ ip.start j hj
        have hs := hstop ip (List.mem_cons_self _ _) h1
        omega
    · exact ih (fun p hp => wf p (List.mem_cons_of_mem _ hp))
        (fun p hp => hstop p (List.mem_cons_of_mem _ hp)) j hj

/-- C10 witness: with 2 events and ranges `[0,1]` and the sentinel, the
write at index 0 is in bounds (and so is every other write). -/
theorem C10_inversion_writes_in_bounds_witness :
    (0 : Int) ≤ 0 ∧ (0 : Int) < ((2 : Nat) : Int) :=
  C10_inversion_writes_in_bounds [⟨0, 1⟩, ⟨-1, -1⟩] 2 (by decide) (by decide)
    0 (by decide)

end NanopolishDump
